import Mathlib

/-!
Verification of the WebVTT subtitle parsing, timestamp, and filename
generation logic of the `youtube-summarizer` repository
(`youtubesummaries/YoutubeSummarizer.py`).

Strings are modelled as `List Char`; Python's line/character level
operations (`str.strip`, `str.split`, `re.sub` with the concrete patterns
used by the code, f-string formatting) are given executable definitions
that mirror the source, and the parser's imperative cursor loop is
expressed as a fuel-indexed recursion (the fuel is the line count plus
one, which the loop never exhausts since each iteration consumes at least
one line).  Fallible operations (tuple unpacking of `str.split` results,
`int(...)` parsing) are modelled in `Except Unit`.
-/

namespace YTS

/-- Python whitespace characters relevant to `str.strip()` / `str.split()`
(ASCII range; the repository's inputs are ASCII VTT text). -/
def isSpace (c : Char) : Bool :=
  c = ' ' || c = '\t' || c = '\n' || c = '\r' || c = '\x0b' || c = '\x0c'

/-- Python `str.strip()`: drop leading and trailing whitespace. -/
def pyStrip (l : List Char) : List Char :=
  ((l.dropWhile isSpace).reverse.dropWhile isSpace).reverse

/-- Python `str.split(sep)` for a single-character separator. -/
def splitOnChar (sep : Char) : List Char → List (List Char)
  | [] => [[]]
  | c :: r =>
    if c = sep then [] :: splitOnChar sep r
    else
      match splitOnChar sep r with
      | [] => [[c]]
      | p :: ps => (c :: p) :: ps

/-- Python `sub in s` (contiguous substring test). -/
def hasSubstr (pat : List Char) : List Char → Bool
  | [] => pat.isEmpty
  | c :: r => pat.isPrefixOf (c :: r) || hasSubstr pat r

/-- Python `str.split(sep)` for a multi-character separator, fuel-indexed
(each step consumes one character, so `l.length + 1` fuel suffices). -/
def splitSeqF (sep : List Char) : Nat → List Char → List (List Char)
  | 0, l => [l]
  | _ + 1, [] => [[]]
  | f + 1, c :: r =>
    if sep.isPrefixOf (c :: r) then
      [] :: splitSeqF sep f ((c :: r).drop sep.length)
    else
      match splitSeqF sep f r with
      | [] => [[c]]
      | p :: ps => (c :: p) :: ps

/-- The literal `" --> "` cue-timing separator. -/
def arrowSep : List Char := ' ' :: '-' :: '-' :: '>' :: ' ' :: []

/-- The literal `"-->"` cue-timing token. -/
def arrowTok : List Char := '-' :: '-' :: '>' :: []

/-- `line.split(" --> ")`. -/
def splitArrow (l : List Char) : List (List Char) :=
  splitSeqF arrowSep (l.length + 1) l

/-- Value of a digit character. -/
def digitVal (c : Char) : Nat := c.toNat - 48

/-- Accumulating base-10 evaluation of a digit string; `none` on any
non-digit character (Python `int` rejects such strings). -/
def digitsAux (acc : Nat) : List Char → Option Nat
  | [] => some acc
  | c :: r => if c.isDigit then digitsAux (acc * 10 + digitVal c) r else none

/-- Evaluation of a non-empty all-digit string. -/
def digitsToNat : List Char → Option Nat
  | [] => none
  | c :: r => digitsAux 0 (c :: r)

/-- Python `int(s)`: strip whitespace, optional sign, non-empty digit
string; raises `ValueError` (modelled as `.error`) otherwise. -/
def pyInt (l : List Char) : Except Unit Int :=
  match pyStrip l with
  | [] => .error ()
  | c :: r =>
    if c = '+' then
      match digitsToNat r with
      | some n => .ok (n : Int)
      | none => .error ()
    else if c = '-' then
      match digitsToNat r with
      | some n => .ok (-(n : Int))
      | none => .error ()
    else
      match digitsToNat (c :: r) with
      | some n => .ok (n : Int)
      | none => .error ()

/-!  ### Line cleaning (`_clean_vtt_line`)  -/

/-- Recogniser for the inline karaoke marker `<HH:MM:SS.mmm>`
(the pattern `<\d{2}:\d{2}:\d{2}\.\d{3}>`); on success returns the rest of
the input after the 14-character marker. -/
def tsMarker? : List Char → Option (List Char)
  | '<' :: a :: b :: ':' :: c :: d :: ':' :: e :: f :: '.' :: g :: h :: i :: '>' :: rest =>
    if a.isDigit && b.isDigit && c.isDigit && d.isDigit && e.isDigit && f.isDigit &&
       g.isDigit && h.isDigit && i.isDigit then some rest else none
  | _ => none

/-- `re.sub(r"<\d{2}:\d{2}:\d{2}\.\d{3}>", "", line)`: left-to-right scan
removing every karaoke marker (fuel-indexed; each step consumes at least
one character). -/
def subTsF : Nat → List Char → List Char
  | 0, l => l
  | _ + 1, [] => []
  | f + 1, c :: r =>
    match tsMarker? (c :: r) with
    | some rest => subTsF f rest
    | none => c :: subTsF f r

def subTs (l : List Char) : List Char := subTsF l.length l

/-- Rest of the input after the first `'>'`, if any. -/
def afterClose : List Char → Option (List Char)
  | [] => none
  | c :: r => if c = '>' then some r else afterClose r

/-- Attempt of the regex `<[^>]+>` at a position whose `'<'` has already
been consumed: succeeds iff the first following `'>'` is at distance at
least one; returns the rest after that `'>'`. -/
def findTag (r : List Char) : Option (List Char) :=
  match r with
  | '>' :: _ => none
  | _ => afterClose r

/-- `re.sub(r"<[^>]+>", "", line)`: left-to-right removal of every
angle-bracket tag span (fuel-indexed). -/
def subTagsF : Nat → List Char → List Char
  | 0, l => l
  | _ + 1, [] => []
  | f + 1, c :: r =>
    if c = '<' then
      match findTag r with
      | some r2 => subTagsF f r2
      | none => '<' :: subTagsF f r
    else c :: subTagsF f r

def subTags (l : List Char) : List Char := subTagsF l.length l

/-- Collapse every maximal whitespace run to a single `' '`, dropping a
trailing run entirely (the run-collapsing core of
`" ".flatten(line.split())`, which keeps a single leading space when the
input had leading whitespace). -/
def coll : List Char → List Char
  | [] => []
  | c :: r =>
    if isSpace c then
      match coll r with
      | [] => []
      | d :: t => if d = ' ' then d :: t else ' ' :: d :: t
    else c :: coll r

/-- Drop a leading run of `' '` characters (at most one can occur in the
output of `coll`). -/
def dropSp : List Char → List Char
  | [] => []
  | c :: r => if c = ' ' then dropSp r else c :: r

/-- `" ".flatten(line.split())`: words joined by single spaces, no leading or
trailing whitespace. -/
def joinSplit (l : List Char) : List Char :=
  dropSp (coll l)

/-- `_clean_vtt_line`: remove karaoke markers, then tag spans, then
normalise whitespace (the final Python `.strip()` is applied too). -/
def cleanLine (l : List Char) : List Char :=
  pyStrip (joinSplit (subTags (subTs l)))

/-- Tag-free strings: at every `'<'`, the regex `<[^>]+>` fails (the
first later `'>'`, if any, is immediately adjacent).  Such strings are
fixed points of both substitution passes of `_clean_vtt_line`. -/
def noTagB : List Char → Bool
  | [] => true
  | c :: r => (if c = '<' then (findTag r).isNone else true) && noTagB r

/-- Whitespace-normal strings: every whitespace character is a `' '`
followed by a non-whitespace character (so: single internal spaces, no
trailing whitespace, no exotic whitespace). -/
def normB : List Char → Bool
  | [] => true
  | c :: r =>
    (if isSpace c then
      (c == ' ') && (match r with | [] => false | c2 :: _ => !isSpace c2)
     else true) && normB r

/-!  ### `_time_to_seconds`  -/

/-- `_time_to_seconds`: split on `':'` into exactly three fields, split
the last on `'.'` into exactly two, parse the integer parts, return
`h*3600 + m*60 + s`.  Any other shape raises (modelled as `.error`). -/
def time_to_seconds (l : List Char) : Except Unit Int :=
  match splitOnChar ':' l with
  | [h, m, sms] =>
    match splitOnChar '.' sms with
    | [s, _ms] => do
      let hv ← pyInt h
      let mv ← pyInt m
      let sv ← pyInt s
      pure (hv * 3600 + mv * 60 + sv)
    | _ => .error ()
  | _ => .error ()

/-!  ### `_parse_vtt_content`  -/

/-- Join a list of fragments with single spaces (Python `" ".flatten`). -/
def joinSp : List (List Char) → List Char
  | [] => []
  | [x] => x
  | x :: y :: xs => x ++ ' ' :: joinSp (y :: xs)

/-- Python `line.isdigit()` (equivalently `re.match(r"^\d+$", line)` on
ASCII input, which is how the source uses the two checks): non-empty and
all digits. -/
def isDigitOnly (l : List Char) : Bool :=
  !l.isEmpty && l.all Char.isDigit

/-- The keep condition of the flat-transcript pass, evaluated on the
stripped line: non-empty, not a `WEBVTT`/`NOTE`/`Kind:`/`Language:`
header, no `-->`, not digit-only (the source checks `line.isdigit()` and
`re.match(r"^\d+$", line)`, which coincide on this model). -/
def keepLine (l : List Char) : Bool :=
  !l.isEmpty &&
  !("WEBVTT".data.isPrefixOf l) &&
  !("NOTE".data.isPrefixOf l) &&
  !("Kind:".data.isPrefixOf l) &&
  !("Language:".data.isPrefixOf l) &&
  !(hasSubstr arrowTok l) &&
  !(isDigitOnly l) &&
  !(isDigitOnly l)

/-- The cleaned fragment the flat pass emits for one raw line, if any. -/
def contentFrag (raw : List Char) : Option (List Char) :=
  let l := pyStrip raw
  if keepLine l then
    let c := cleanLine l
    if c.isEmpty then none else some c
  else none

/-- Fragments collected by the flat-transcript pass. -/
def contentFragments (lines : List (List Char)) : List (List Char) :=
  lines.filterMap contentFrag

/-- `_parse_vtt_content`: split into lines, collect cleaned fragments,
join with single spaces. -/
def parse_vtt_content (s : List Char) : List Char :=
  joinSp (contentFragments (splitOnChar '\n' s))

/-!  ### `_parse_vtt_timestamps`  -/

/-- `TimestampedSegment` (dataclass of `TimestampedSegment.py`). -/
structure TimestampedSegment where
  start_time : List Char
  end_time : List Char
  text : List Char
  start_seconds : Int
deriving DecidableEq, Repr

/-- Exactly twelve characters of shape `dd:dd:dd.ddd`. -/
def isTs12 : List Char → Bool
  | a :: b :: ':' :: c :: d :: ':' :: e :: f :: '.' :: g :: h :: i :: [] =>
    a.isDigit && b.isDigit && c.isDigit && d.isDigit && e.isDigit && f.isDigit &&
    g.isDigit && h.isDigit && i.isDigit
  | _ => false

/-- `re.match(r"^\d{2}:\d{2}:\d{2}\.\d{3} --> \d{2}:\d{2}:\d{2}\.\d{3}", line)`:
a prefix match of two strict twelve-character timestamps around `" --> "`.
Trailing cue-settings text is allowed. -/
def timingPrefix (l : List Char) : Bool :=
  isTs12 (l.take 12) && (l.drop 12).take 5 = arrowSep && isTs12 ((l.drop 17).take 12)

/-- The cue-timing-line condition of the source:
`"-->" in line and re.match(...)`. -/
def isTimingLine (l : List Char) : Bool :=
  hasSubstr arrowTok l && timingPrefix l

/-- Inner text-collection loop: starting just after a cue-timing line,
gather cleaned non-empty text lines until a blank line (consumed), a
`-->` line (left in place for the outer scan), or the end of input.
Returns the collected fragments and the remaining lines. -/
def collectText : List (List Char) → List (List Char) × List (List Char)
  | [] => ([], [])
  | raw :: rest =>
    let t := pyStrip raw
    if t.isEmpty then ([], rest)
    else if hasSubstr arrowTok t then ([], raw :: rest)
    else
      let c := cleanLine t
      let (parts, rem) := collectText rest
      (if c.isEmpty then parts else c :: parts, rem)

/-- Outer cursor loop of `_parse_vtt_timestamps`, fuel-indexed (each
iteration consumes at least one line, so `lines.length + 1` fuel
suffices).  A cue-timing line is split on `" --> "`; the tuple unpacking
`start, end = line.split(" --> ")` raises `ValueError` (modelled as
`.error`) unless the split has exactly two parts. -/
def parseLoopF : Nat → List (List Char) → Except Unit (List TimestampedSegment)
  | 0, _ => .ok []
  | _ + 1, [] => .ok []
  | f + 1, raw :: rest =>
    let line := pyStrip raw
    if isTimingLine line then
      match splitArrow line with
      | [st, en] =>
        let (parts, rem) := collectText rest
        match parseLoopF f rem with
        | .error e => .error e
        | .ok tailSegs =>
          if parts.isEmpty then .ok tailSegs
          else
            match time_to_seconds st with
            | .error e => .error e
            | .ok secs =>
              .ok ({ start_time := st.take 8, end_time := en.take 8,
                     text := joinSp parts, start_seconds := secs } :: tailSegs)
      | _ => .error ()
    else parseLoopF f rest

/-- `_parse_vtt_timestamps`: split into lines and run the cursor loop. -/
def parse_vtt_timestamps (s : List Char) : Except Unit (List TimestampedSegment) :=
  let lines := splitOnChar '\n' s
  parseLoopF (lines.length + 1) lines

/-- Two-digit field value. -/
def twoDig (x y : Char) : Nat := digitVal x * 10 + digitVal y

/-- Whole-second value of the start timestamp of a cue-timing line
(positions 0–7 hold `HH:MM:SS`). -/
def tsStartSecs (l : List Char) : Int :=
  ((twoDig (l.getD 0 ' ') (l.getD 1 ' ') : Nat) : Int) * 3600 +
  ((twoDig (l.getD 3 ' ') (l.getD 4 ' ') : Nat) : Int) * 60 +
  ((twoDig (l.getD 6 ' ') (l.getD 7 ' ') : Nat) : Int)

/-- Millisecond-precision value of the start timestamp of a cue-timing
line (positions 9–11 hold the milliseconds). -/
def tsStartMs (l : List Char) : Int :=
  tsStartSecs l * 1000 +
  ((digitVal (l.getD 9 ' ') * 100 + digitVal (l.getD 10 ' ') * 10 +
    digitVal (l.getD 11 ' ') : Nat) : Int)

/-- The stripped cue-timing lines of a document, in document order. -/
def timingLines (lines : List (List Char)) : List (List Char) :=
  (lines.map pyStrip).filter isTimingLine

/-- The millisecond start values of all cue-timing lines of a document,
in document order. -/
def timingStartMs (lines : List (List Char)) : List Int :=
  (timingLines lines).map tsStartMs

/-- The whole-second start values of all cue-timing lines of a document,
in document order. -/
def timingStartSecs (lines : List (List Char)) : List Int :=
  (timingLines lines).map tsStartSecs

/-- A cue-timing line that parses without an exception: it matches the
timing pattern and splits into exactly two parts on `" --> "`. -/
def timingOkB (l : List Char) : Bool :=
  isTimingLine l && (splitArrow l).length == 2

/-- A line both passes ignore outside cue blocks: blank, a WebVTT header
line, or a bare cue-sequence number — and free of `"-->"`. -/
def ignorableLine (l : List Char) : Bool :=
  (l.isEmpty || "WEBVTT".data.isPrefixOf l || "NOTE".data.isPrefixOf l ||
   "Kind:".data.isPrefixOf l || "Language:".data.isPrefixOf l || isDigitOnly l) &&
  !(hasSubstr arrowTok l)

/-- Well-formedness of a document's stripped lines, scanned with a mode
flag: mode `false` is outside a cue block (only well-behaved timing lines
and ignorable junk may occur); mode `true` is inside a cue block's text
region (a blank line closes the block, a `-->` line must be a
well-behaved timing line starting the next block, and any other line must
be ordinary cue text that the flat pass also keeps).  On such documents
the flat transcript and the segment texts agree. -/
def goodF : List (List Char) → Bool → Bool
  | [], _ => true
  | raw :: rest, false =>
    let l := pyStrip raw
    if timingOkB l then goodF rest true
    else if ignorableLine l then goodF rest false
    else false
  | raw :: rest, true =>
    let l := pyStrip raw
    if l.isEmpty then goodF rest false
    else if hasSubstr arrowTok l then timingOkB l && goodF rest true
    else if keepLine l then goodF rest true
    else false

/-!  ### Filename generation and summary saving  -/

/-- `VideoMetadata` (dataclass of `VideoMetadata.py`). -/
structure VideoMetadata where
  title : List Char
  channel : List Char
  channel_id : List Char
  upload_date : List Char
  duration : Option Int := none
  description : Option (List Char) := none
  view_count : Option Int := none
deriving DecidableEq, Repr

/-- The filesystem-invalid characters replaced by `'_'`
(`re.sub(r'[<>:"/\\|?*]', "_", title)`). -/
def invalidFsChars : List Char := "<>:\"/\\|?*".data

/-- A separator character of the class `[-_\s]`. -/
def isSepChar (c : Char) : Bool := c = '-' || c = '_' || isSpace c

/-- `re.sub(r"[-_\s]+", "_", s)`: every maximal run of separator
characters becomes a single `'_'` (leading and trailing runs included). -/
def collSep : List Char → List Char
  | [] => []
  | c :: r =>
    if isSepChar c then
      match collSep r with
      | '_' :: t => '_' :: t
      | t => '_' :: t
    else c :: collSep r

/-- Python `s.strip("_")`. -/
def stripUnd (l : List Char) : List Char :=
  ((l.dropWhile (fun c => c = '_')).reverse.dropWhile (fun c => c = '_')).reverse

/-- Python `s.rstrip("_")`. -/
def rstripUnd (l : List Char) : List Char :=
  (l.reverse.dropWhile (fun c => c = '_')).reverse

/-- `re.sub(r'[<>:"/\\|?*]', "_", title)`. -/
def titleSub1 (l : List Char) : List Char :=
  l.map (fun c => if invalidFsChars.contains c then '_' else c)

/-- `re.sub(r"[^\w\s-]", "", s)`: keep only word characters (modelled as
ASCII alphanumerics plus `'_'`), whitespace and hyphens. -/
def titleSub2 (l : List Char) : List Char :=
  l.filter (fun c => c.isAlphanum || c = '_' || isSpace c || c = '-')

/-- The cleaned title before the 80-character truncation: default
`"Unknown_Title"` for an empty title, the two substitutions, separator
run collapsing, and edge-underscore stripping. -/
def cleanedTitle0 (title : List Char) : List Char :=
  stripUnd (collSep (titleSub2 (titleSub1
    (if title.isEmpty then "Unknown_Title".data else title))))

/-- The cleaned-title pipeline of `generate_filename_from_metadata`,
including the truncation to 80 characters (stripping any trailing `'_'`
left by truncation). -/
def cleanedTitleOf (title : List Char) : List Char :=
  if 80 < (cleanedTitle0 title).length then rstripUnd ((cleanedTitle0 title).take 80)
  else cleanedTitle0 title

/-- The composed `"<cleaned title>.<videoId>.md"` filename. -/
def composedFilename (m : VideoMetadata) (vid : List Char) : List Char :=
  cleanedTitleOf m.title ++ '.' :: (vid ++ ".md".data)

/-- `generate_filename_from_metadata`: compose
`"<cleaned title>.<videoId>.md"`, rebuilding from the first 50 title
characters when the composed name exceeds 200 characters. -/
def generate_filename_from_metadata (m : VideoMetadata) (vid : List Char) : List Char :=
  if 200 < (composedFilename m vid).length then
    (cleanedTitleOf m.title).take 50 ++ '.' :: (vid ++ ".md".data)
  else composedFilename m vid

/-- Decimal digits of a natural number, most significant first
(fuel-indexed division loop). -/
def natDecAux : Nat → Nat → List Char
  | 0, _ => []
  | f + 1, n =>
    if n < 10 then [Char.ofNat (48 + n)]
    else natDecAux f (n / 10) ++ [Char.ofNat (48 + n % 10)]

def natDec (n : Nat) : List Char := natDecAux (n + 1) n

/-- Python `str(n)` for an `int`. -/
def intDec (n : Int) : List Char :=
  if n < 0 then '-' :: natDec n.natAbs else natDec n.toNat

/-- Insert `','` after every three characters of a reversed digit list. -/
def commaRev : List Char → List Char
  | a :: b :: c :: d :: r => a :: b :: c :: ',' :: commaRev (d :: r)
  | l => l

/-- Python `f"{n:,}"`: thousands-grouped decimal. -/
def commaFmt (n : Int) : List Char :=
  if n < 0 then '-' :: (commaRev (natDec n.natAbs).reverse).reverse
  else (commaRev (natDec n.toNat).reverse).reverse

/-- The Duration field of the metadata header written by `save_summary`:
`f"{metadata.duration}s" if metadata.duration else "N/A"` (Python
truthiness: `None` and `0` both fall back to `"N/A"`). -/
def duration_str (d : Option Int) : List Char :=
  match d with
  | some n => if n = 0 then "N/A".data else intDec n ++ ['s']
  | none => "N/A".data

/-- The Views field of the metadata header written by `save_summary`:
`f"{metadata.view_count:,}" if metadata.view_count else "N/A"`. -/
def view_count_str (v : Option Int) : List Char :=
  match v with
  | some n => if n = 0 then "N/A".data else commaFmt n
  | none => "N/A".data

/-- The metadata header block plus summary body written by `save_summary`
when metadata is available. -/
def enhancedSummary (m : VideoMetadata) (vid summary : List Char) : List Char :=
  "# ".data ++ m.title ++ "\n\n**Channel:** ".data ++ m.channel ++
  "  \n**Upload Date:** ".data ++ m.upload_date ++
  "  \n**Video ID:** ".data ++ vid ++
  "  \n**Duration:** ".data ++ duration_str m.duration ++
  "  \n**Views:** ".data ++ view_count_str m.view_count ++
  "  \n\n---\n\n".data ++ summary

/-- `re.sub(r"_+", "_", s)`: collapse every run of underscores to one. -/
def collapseUnd : List Char → List Char
  | [] => []
  | c :: r =>
    if c = '_' then
      match collapseUnd r with
      | '_' :: t => '_' :: t
      | t => '_' :: t
    else c :: collapseUnd r

/-- `generate_title_from_summary`: the LLM collaborator's reply (or its
transport failure) is the argument; the reply is stripped, every
character outside `[A-Za-z0-9_]` is replaced by `'_'`, runs of `'_'`
collapse to one, edge underscores are stripped, and an empty or
over-80-character result raises (all failures surface as
`YouTubeSummarizerError`, modelled as `.error`). -/
def generate_title_from_summary (llm : Except Unit (List Char)) : Except Unit (List Char) :=
  match llm with
  | .error _ => .error ()
  | .ok out =>
    let t1 := (pyStrip out).map (fun c => if c.isAlphanum || c = '_' then c else '_')
    let t2 := stripUnd (collapseUnd t1)
    if t2.isEmpty || 80 < t2.length then .error () else .ok t2

/-- The filename selected by `save_summary`: metadata-based naming when
metadata is present; otherwise the summary-derived title, falling back to
the literal `"summary.<videoId>.md"` when title generation failed (the
inner `except YouTubeSummarizerError` recovers it, so the failure never
escapes). -/
def saveSummaryFilename (metadata : Option VideoMetadata)
    (titleRes : Except Unit (List Char)) (vid : List Char) : List Char :=
  match metadata with
  | some m => generate_filename_from_metadata m vid
  | none =>
    match titleRes with
    | .ok t => t ++ '.' :: (vid ++ ".md".data)
    | .error _ => "summary.".data ++ vid ++ ".md".data

/-!  ### Helper lemmas  -/

theorem digit_ne {a c : Char} (h : a.isDigit = true) (hc : c.isDigit = false) : a ≠ c := by
  intro he
  rw [he, hc] at h
  cases h

theorem digit_not_space {a : Char} (h : a.isDigit = true) : isSpace a = false := by
  cases hs : isSpace a
  · rfl
  · exfalso
    simp only [isSpace, Bool.or_eq_true, decide_eq_true_eq] at hs
    rcases hs with ((((h1 | h1) | h1) | h1) | h1) | h1 <;> subst h1 <;> simp at h

theorem splitOnChar_ne_nil (sep : Char) (l : List Char) : splitOnChar sep l ≠ [] := by
  induction l with
  | nil => simp [splitOnChar]
  | cons c r ih =>
    by_cases hc : c = sep
    · simp [splitOnChar, hc]
    · simp only [splitOnChar, if_neg hc]
      cases hr : splitOnChar sep r <;> simp

theorem splitOnChar_cons_sep (sep : Char) (l : List Char) :
    splitOnChar sep (sep :: l) = [] :: splitOnChar sep l := by
  simp [splitOnChar]

theorem splitOnChar_no_sep {sep : Char} {l : List Char} (h : ∀ x ∈ l, x ≠ sep) :
    splitOnChar sep l = [l] := by
  induction l with
  | nil => rfl
  | cons c r ih =>
    have hc : c ≠ sep := h c (by simp)
    have hr : splitOnChar sep r = [r] := ih (fun x hx => h x (by simp [hx]))
    simp [splitOnChar, if_neg hc, hr]

theorem splitOnChar_append (sep : Char) (p l q : List Char) (qs : List (List Char))
    (hp : ∀ x ∈ p, x ≠ sep) (hl : splitOnChar sep l = q :: qs) :
    splitOnChar sep (p ++ l) = (p ++ q) :: qs := by
  induction p with
  | nil => simpa using hl
  | cons c r ih =>
    have hc : c ≠ sep := hp c (by simp)
    have hr := ih (fun x hx => hp x (by simp [hx]))
    simp only [List.cons_append, splitOnChar, if_neg hc, List.append_eq, hr]

theorem digitsAux_two {a b : Char} (acc : Nat) (ha : a.isDigit = true) (hb : b.isDigit = true) :
    digitsAux acc [a, b] = some ((acc * 10 + digitVal a) * 10 + digitVal b) := by
  simp [digitsAux, ha, hb]

theorem pyStrip_two_digit {a b : Char} (ha : a.isDigit = true) (hb : b.isDigit = true) :
    pyStrip [a, b] = [a, b] := by
  simp [pyStrip, List.dropWhile, digit_not_space ha, digit_not_space hb]

theorem pyInt_two_digit {a b : Char} (ha : a.isDigit = true) (hb : b.isDigit = true) :
    pyInt [a, b] = .ok ((digitVal a * 10 + digitVal b : Nat) : Int) := by
  have hplus : a ≠ '+' := digit_ne ha (by decide)
  have hminus : a ≠ '-' := digit_ne ha (by decide)
  rw [pyInt, pyStrip_two_digit ha hb]
  simp only [if_neg hplus, if_neg hminus, digitsToNat, digitsAux_two 0 ha hb]
  norm_num

/-- Behaviour of `_time_to_seconds` on any input of the shape
`dd:dd:dd.<fraction>` (two-digit fields, arbitrary dot- and colon-free
fraction). -/
theorem time_to_seconds_wellFormed {a b c d e f : Char} {frac : List Char}
    (ha : a.isDigit = true) (hb : b.isDigit = true) (hc : c.isDigit = true)
    (hd : d.isDigit = true) (he : e.isDigit = true) (hf : f.isDigit = true)
    (hdot : '.' ∉ frac) (hcolon : ':' ∉ frac) :
    time_to_seconds (a :: b :: ':' :: c :: d :: ':' :: e :: f :: '.' :: frac)
      = .ok (((digitVal a * 10 + digitVal b : Nat) : Int) * 3600 +
             ((digitVal c * 10 + digitVal d : Nat) : Int) * 60 +
             ((digitVal e * 10 + digitVal f : Nat) : Int)) := by
  have hlast : splitOnChar ':' (e :: f :: '.' :: frac) = [e :: f :: '.' :: frac] := by
    apply splitOnChar_no_sep
    intro x hx
    simp only [List.mem_cons] at hx
    rcases hx with h1 | h1 | h1 | h1
    · exact h1 ▸ digit_ne he (by decide)
    · exact h1 ▸ digit_ne hf (by decide)
    · simp [h1]
    · intro hxe; exact hcolon (hxe ▸ h1)
  have hmid : splitOnChar ':' (c :: d :: ':' :: e :: f :: '.' :: frac)
      = [c, d] :: [e :: f :: '.' :: frac] := by
    have := splitOnChar_append ':' [c, d] (':' :: e :: f :: '.' :: frac) []
      (splitOnChar ':' (e :: f :: '.' :: frac))
      (fun x hx => by
        simp only [List.mem_cons] at hx
        rcases hx with h1 | h1 | h1
        · exact h1 ▸ digit_ne hc (by decide)
        · exact h1 ▸ digit_ne hd (by decide)
        · cases h1)
      (splitOnChar_cons_sep ':' _)
    rw [hlast] at this
    simpa using this
  have hfull : splitOnChar ':' (a :: b :: ':' :: c :: d :: ':' :: e :: f :: '.' :: frac)
      = [a, b] :: [c, d] :: [e :: f :: '.' :: frac] := by
    have := splitOnChar_append ':' [a, b] (':' :: c :: d :: ':' :: e :: f :: '.' :: frac) []
      (splitOnChar ':' (c :: d :: ':' :: e :: f :: '.' :: frac))
      (fun x hx => by
        simp only [List.mem_cons] at hx
        rcases hx with h1 | h1 | h1
        · exact h1 ▸ digit_ne ha (by decide)
        · exact h1 ▸ digit_ne hb (by decide)
        · cases h1)
      (splitOnChar_cons_sep ':' _)
    rw [hmid] at this
    simpa using this
  have hdotsplit : splitOnChar '.' (e :: f :: '.' :: frac) = [e, f] :: [frac] := by
    have hfrac : splitOnChar '.' frac = [frac] :=
      splitOnChar_no_sep (fun x hx hxe => hdot (hxe ▸ hx))
    have := splitOnChar_append '.' [e, f] ('.' :: frac) [] (splitOnChar '.' frac)
      (fun x hx => by
        simp only [List.mem_cons] at hx
        rcases hx with h1 | h1 | h1
        · exact h1 ▸ digit_ne he (by decide)
        · exact h1 ▸ digit_ne hf (by decide)
        · cases h1)
      (splitOnChar_cons_sep '.' _)
    rw [hfrac] at this
    simpa using this
  rw [time_to_seconds, hfull]
  simp [hdotsplit, pyInt_two_digit ha hb, pyInt_two_digit hc hd, pyInt_two_digit he hf]
  rfl

theorem rstripUnd_length_le (l : List Char) : (rstripUnd l).length ≤ l.length := by
  unfold rstripUnd
  calc ((l.reverse.dropWhile (fun c => c = '_')).reverse).length
      = (l.reverse.dropWhile (fun c => c = '_')).length := by rw [List.length_reverse]
    _ ≤ l.reverse.length := (List.dropWhile_suffix _).sublist.length_le
    _ = l.length := by rw [List.length_reverse]

theorem cleanedTitleOf_length_le (t : List Char) : (cleanedTitleOf t).length ≤ 80 := by
  unfold cleanedTitleOf
  split
  · calc (rstripUnd ((cleanedTitle0 t).take 80)).length
        ≤ ((cleanedTitle0 t).take 80).length := rstripUnd_length_le _
      _ ≤ 80 := by simp [List.length_take]
  · omega

theorem collSep_all_und {l : List Char} (h : ∀ c ∈ l, c = '_') :
    collSep l = [] ∨ collSep l = ['_'] := by
  induction l with
  | nil => exact .inl rfl
  | cons c r ih =>
    have hcu : c = '_' := h c (by simp)
    have hsep : isSepChar c = true := by simp [isSepChar, hcu]
    have ihr := ih (fun x hx => h x (by simp [hx]))
    right
    rcases ihr with h0 | h1
    · simp [collSep, hsep, h0]
    · simp [collSep, hsep, h1]

theorem cleanedTitleOf_nonword {t : List Char} (hne : t ≠ [])
    (hch : ∀ c ∈ t, c.isAlphanum = false ∧ c ≠ '_' ∧ isSpace c = false ∧ c ≠ '-') :
    cleanedTitleOf t = [] := by
  have hempty : t.isEmpty = false := by
    cases t with
    | nil => exact absurd rfl hne
    | cons a r => rfl
  have hall : ∀ x ∈ titleSub2 (titleSub1 t), x = '_' := by
    intro x hx
    rw [titleSub2, List.mem_filter] at hx
    obtain ⟨hx1, hx2⟩ := hx
    rw [titleSub1, List.mem_map] at hx1
    obtain ⟨c0, hc0, hmap⟩ := hx1
    by_cases hinv : invalidFsChars.contains c0
    · rw [if_pos hinv] at hmap
      exact hmap.symm
    · rw [if_neg hinv] at hmap
      subst hmap
      obtain ⟨h1, h2n, h3, h4⟩ := hch c0 hc0
      simp [h1, h2n, h3, h4] at hx2
  have h0 : cleanedTitle0 t = [] := by
    rw [cleanedTitle0, hempty]
    simp only [Bool.false_eq_true, if_false]
    rcases collSep_all_und hall with h0 | h1
    · rw [h0]; rfl
    · rw [h1]; rfl
  rw [cleanedTitleOf, h0]
  simp

theorem splitSeqF_fuel {sep : List Char} (hsep : sep ≠ []) :
    ∀ f1 f2 l, l.length ≤ f1 → l.length ≤ f2 →
      splitSeqF sep f1 l = splitSeqF sep f2 l := by
  intro f1
  induction f1 with
  | zero =>
    intro f2 l h1 _
    have hl : l = [] := List.length_eq_zero.mp (Nat.le_zero.mp h1)
    subst hl
    cases f2 <;> rfl
  | succ f1 ih =>
    intro f2 l h1 h2
    cases l with
    | nil => cases f2 <;> rfl
    | cons c r =>
      cases f2 with
      | zero => simp at h2
      | succ f2 =>
        have hsl : 1 ≤ sep.length := by
          cases sep with
          | nil => exact absurd rfl hsep
          | cons a as => simp
        simp only [splitSeqF]
        by_cases hp : sep.isPrefixOf (c :: r) = true
        · rw [if_pos hp, if_pos hp]
          have hd1 : ((c :: r).drop sep.length).length ≤ f1 := by
            rw [List.length_drop]
            simp only [List.length_cons] at h1 ⊢
            omega
          have hd2 : ((c :: r).drop sep.length).length ≤ f2 := by
            rw [List.length_drop]
            simp only [List.length_cons] at h2 ⊢
            omega
          rw [ih f2 _ hd1 hd2]
        · rw [if_neg hp, if_neg hp]
          have hr : splitSeqF sep f1 r = splitSeqF sep f2 r := by
            apply ih f2 r
            · simp only [List.length_cons] at h1; omega
            · simp only [List.length_cons] at h2; omega
          rw [hr]

theorem arrow_not_prefix {c : Char} (hc : c ≠ ' ') (r : List Char) :
    arrowSep.isPrefixOf (c :: r) = false := by
  show ((' ' == c) && (('-' :: '-' :: '>' :: ' ' :: []).isPrefixOf r)) = false
  have : (' ' == c) = false := beq_eq_false_iff_ne.mpr (Ne.symm hc)
  rw [this, Bool.false_and]

theorem splitSeqF_arrow_aux (p : List Char) (hp : ∀ x ∈ p, x ≠ ' ') :
    ∀ f rest, (p ++ arrowSep ++ rest).length ≤ f →
      splitSeqF arrowSep f (p ++ arrowSep ++ rest)
        = p :: splitSeqF arrowSep (rest.length + 1) rest := by
  induction p with
  | nil =>
    intro f rest hlen
    cases f with
    | zero => simp [arrowSep] at hlen
    | succ f =>
      have hpre : arrowSep.isPrefixOf (' ' :: '-' :: '-' :: '>' :: ' ' :: rest) = true := by
        rw [List.isPrefixOf_iff_prefix]
        exact List.prefix_append arrowSep rest
      show splitSeqF arrowSep (f + 1) (' ' :: '-' :: '-' :: '>' :: ' ' :: rest) = _
      rw [splitSeqF, if_pos hpre]
      have hdrop : (' ' :: '-' :: '-' :: '>' :: ' ' :: rest).drop arrowSep.length = rest := rfl
      rw [hdrop]
      have hfuel : splitSeqF arrowSep f rest = splitSeqF arrowSep (rest.length + 1) rest := by
        apply splitSeqF_fuel (by simp [arrowSep])
        · simp only [List.nil_append, List.length_append, List.length_cons] at hlen
          simp only [arrowSep, List.length_cons] at hlen ⊢
          omega
        · omega
      rw [hfuel]
  | cons c p' ih =>
    intro f rest hlen
    cases f with
    | zero => simp at hlen
    | succ f =>
      have hc : c ≠ ' ' := hp c (by simp)
      have hnp : arrowSep.isPrefixOf (c :: (p' ++ arrowSep ++ rest)) = false :=
        arrow_not_prefix hc _
      show splitSeqF arrowSep (f + 1) (c :: (p' ++ arrowSep ++ rest)) = _
      rw [splitSeqF, if_neg (by rw [hnp]; exact fun h => nomatch h)]
      have hrec := ih (fun x hx => hp x (by simp [hx])) f rest
        (by simp only [List.cons_append, List.length_cons] at hlen; omega)
      rw [hrec]

theorem splitArrow_append (p rest : List Char) (hp : ∀ x ∈ p, x ≠ ' ') :
    splitArrow (p ++ arrowSep ++ rest) = p :: splitArrow rest := by
  unfold splitArrow
  exact splitSeqF_arrow_aux p hp _ rest (by omega)

theorem isTs12_shape {t : List Char} (ht : isTs12 t = true) :
    ∃ a b c d e f g h i, t = [a, b, ':', c, d, ':', e, f, '.', g, h, i] ∧
      a.isDigit = true ∧ b.isDigit = true ∧ c.isDigit = true ∧ d.isDigit = true ∧
      e.isDigit = true ∧ f.isDigit = true ∧ g.isDigit = true ∧ h.isDigit = true ∧
      i.isDigit = true := by
  unfold isTs12 at ht
  split at ht
  · rename_i a b c d e f g h i
    exact ⟨a, b, c, d, e, f, g, h, i, rfl, by simpa [and_assoc] using ht⟩
  · cases ht

theorem isTimingLine_shape {l : List Char} (h : isTimingLine l = true) :
    ∃ a b c d e f g h' i rest,
      l = a :: b :: ':' :: c :: d :: ':' :: e :: f :: '.' :: g :: h' :: i ::
        (arrowSep ++ rest) ∧
      a.isDigit = true ∧ b.isDigit = true ∧ c.isDigit = true ∧ d.isDigit = true ∧
      e.isDigit = true ∧ f.isDigit = true ∧ g.isDigit = true ∧ h'.isDigit = true ∧
      i.isDigit = true := by
  have h2 : timingPrefix l = true := (Bool.and_eq_true_iff.mp h).2
  unfold timingPrefix at h2
  rw [Bool.and_eq_true, Bool.and_eq_true] at h2
  obtain ⟨⟨h3, h4⟩, -⟩ := h2
  have h4' : (l.drop 12).take 5 = arrowSep := by simpa using h4
  obtain ⟨a, b, c, d, e, f, g, h', i, ht, hds⟩ := isTs12_shape h3
  have hsplit12 : l = l.take 12 ++ l.drop 12 := (List.take_append_drop 12 l).symm
  have hsplit5 : l.drop 12 = arrowSep ++ l.drop 17 := by
    conv_lhs => rw [← List.take_append_drop 5 (l.drop 12)]
    rw [h4', List.drop_drop]
  refine ⟨a, b, c, d, e, f, g, h', i, l.drop 17, ?_, hds⟩
  conv_lhs => rw [hsplit12, hsplit5, ht]
  rfl

theorem timing_splitArrow {l : List Char} (h : isTimingLine l = true) :
    splitArrow l = l.take 12 :: splitArrow (l.drop 17) := by
  obtain ⟨a, b, c, d, e, f, g, h', i, rest, hl, ha, hb, hc, hd, he, hf, hg, hh, hi⟩ :=
    isTimingLine_shape h
  subst hl
  have hp : ∀ x ∈ [a, b, ':', c, d, ':', e, f, '.', g, h', i], x ≠ ' ' := by
    intro x hx
    simp only [List.mem_cons, List.not_mem_nil, or_false] at hx
    rcases hx with rfl | rfl | rfl | rfl | rfl | rfl | rfl | rfl | rfl | rfl | rfl | rfl
    · exact digit_ne ha (by decide)
    · exact digit_ne hb (by decide)
    · decide
    · exact digit_ne hc (by decide)
    · exact digit_ne hd (by decide)
    · decide
    · exact digit_ne he (by decide)
    · exact digit_ne hf (by decide)
    · decide
    · exact digit_ne hg (by decide)
    · exact digit_ne hh (by decide)
    · exact digit_ne hi (by decide)
  exact splitArrow_append [a, b, ':', c, d, ':', e, f, '.', g, h', i] rest hp

theorem timing_take12_tts {l : List Char} (h : isTimingLine l = true) :
    time_to_seconds (l.take 12) = .ok (tsStartSecs l) := by
  obtain ⟨a, b, c, d, e, f, g, h', i, rest, hl, ha, hb, hc, hd, he, hf, hg, hh, hi⟩ :=
    isTimingLine_shape h
  subst hl
  have hfrac1 : '.' ∉ [g, h', i] := by
    intro hmem
    simp only [List.mem_cons, List.not_mem_nil, or_false] at hmem
    rcases hmem with h1 | h1 | h1
    · exact digit_ne hg (by decide) h1.symm
    · exact digit_ne hh (by decide) h1.symm
    · exact digit_ne hi (by decide) h1.symm
  have hfrac2 : ':' ∉ [g, h', i] := by
    intro hmem
    simp only [List.mem_cons, List.not_mem_nil, or_false] at hmem
    rcases hmem with h1 | h1 | h1
    · exact digit_ne hg (by decide) h1.symm
    · exact digit_ne hh (by decide) h1.symm
    · exact digit_ne hi (by decide) h1.symm
  exact time_to_seconds_wellFormed ha hb hc hd he hf hfrac1 hfrac2

theorem collectText_snd_suffix (L : List (List Char)) : (collectText L).2 <:+ L := by
  induction L with
  | nil => exact List.suffix_refl []
  | cons raw rest ih =>
    simp only [collectText]
    by_cases h1 : (pyStrip raw).isEmpty
    · rw [if_pos h1]
      exact List.suffix_cons raw rest
    · rw [if_neg h1]
      by_cases h2 : hasSubstr arrowTok (pyStrip raw)
      · rw [if_pos h2]
      · rw [if_neg h2]
        rcases hcr : collectText rest with ⟨ps, rm⟩
        rw [hcr] at ih
        exact ih.trans (List.suffix_cons raw rest)

theorem collectText_snd_length (L : List (List Char)) : (collectText L).2.length ≤ L.length :=
  (collectText_snd_suffix L).sublist.length_le

theorem parseLoopF_ok : ∀ f (L : List (List Char)), L.length < f →
    (∀ raw ∈ L, isTimingLine (pyStrip raw) = true →
      (splitArrow (pyStrip raw)).length = 2) →
    ∃ segs, parseLoopF f L = .ok segs := by
  intro f
  induction f with
  | zero =>
    intro L h _
    omega
  | succ f ih =>
    intro L hlen hall
    cases L with
    | nil => exact ⟨[], rfl⟩
    | cons raw rest =>
      by_cases ht : isTimingLine (pyStrip raw) = true
      · obtain ⟨st, en, hse⟩ : ∃ st en, splitArrow (pyStrip raw) = [st, en] := by
          have h2 := hall raw (by simp) ht
          cases hsp : splitArrow (pyStrip raw) with
          | nil => rw [hsp] at h2; simp at h2
          | cons x xs =>
            cases xs with
            | nil => rw [hsp] at h2; simp at h2
            | cons y ys =>
              cases ys with
              | nil => exact ⟨x, y, rfl⟩
              | cons z zs =>
                rw [hsp] at h2
                simp only [List.length_cons] at h2
                omega
        have hst : st = (pyStrip raw).take 12 := by
          have h3 := hse.symm.trans (timing_splitArrow ht)
          injection h3
        have htts : time_to_seconds st = .ok (tsStartSecs (pyStrip raw)) := by
          rw [hst]
          exact timing_take12_tts ht
        rcases hcr : collectText rest with ⟨parts, rem⟩
        have hrem : rem.length ≤ rest.length := by
          have := collectText_snd_length rest
          rw [hcr] at this
          exact this
        have hremmem : ∀ raw' ∈ rem, raw' ∈ rest := by
          intro raw' hmem
          have hsuf := collectText_snd_suffix rest
          rw [hcr] at hsuf
          exact hsuf.sublist.subset hmem
        obtain ⟨tailSegs, htail⟩ := ih rem
          (by simp only [List.length_cons] at hlen; omega)
          (fun raw' hmem => hall raw' (List.mem_cons_of_mem raw (hremmem raw' hmem)))
        simp only [parseLoopF]
        rw [if_pos ht, hse, hcr]
        by_cases hpe : parts.isEmpty
        · exact ⟨tailSegs, by simp only [htail, hpe, if_true]⟩
        · have hpe' : parts.isEmpty = false := by
            simpa using hpe
          refine ⟨{ start_time := st.take 8, end_time := en.take 8, text := joinSp parts,
                    start_seconds := tsStartSecs (pyStrip raw) } :: tailSegs, ?_⟩
          simp only [htail, htts, hpe']
          rfl
      · have hall' : ∀ raw' ∈ rest, isTimingLine (pyStrip raw') = true →
            (splitArrow (pyStrip raw')).length = 2 :=
          fun raw' hmem => hall raw' (List.mem_cons_of_mem raw hmem)
        obtain ⟨segs, hsegs⟩ := ih rest
          (by simp only [List.length_cons] at hlen; omega) hall'
        refine ⟨segs, ?_⟩
        simp only [parseLoopF]
        rw [if_neg ht]
        exact hsegs

theorem digitVal_le_nine {c : Char} (h : c.isDigit = true) : digitVal c ≤ 9 := by
  simp only [Char.isDigit, Bool.and_eq_true, decide_eq_true_eq] at h
  obtain ⟨h1, h2⟩ := h
  have n2 : c.val.toNat ≤ 57 := UInt32.toNat_le_of_le (by decide) h2
  have heq : Char.toNat c = c.val.toNat := rfl
  unfold digitVal
  omega

theorem tsStartMs_decomp {l : List Char} (h : isTimingLine l = true) :
    ∃ fr : Nat, fr ≤ 999 ∧ tsStartMs l = tsStartSecs l * 1000 + (fr : Int) := by
  obtain ⟨a, b, c, d, e, f, g, h', i, rest, hl, ha, hb, hc, hd, he, hf, hg, hh, hi⟩ :=
    isTimingLine_shape h
  subst hl
  refine ⟨digitVal g * 100 + digitVal h' * 10 + digitVal i, ?_, rfl⟩
  have b1 := digitVal_le_nine hg
  have b2 := digitVal_le_nine hh
  have b3 := digitVal_le_nine hi
  omega

theorem pairwise_ms_to_secs {L : List (List Char)}
    (h : List.Pairwise (· ≤ ·) (timingStartMs L)) :
    List.Pairwise (· ≤ ·) (timingStartSecs L) := by
  unfold timingStartMs at h
  unfold timingStartSecs
  rw [List.pairwise_map] at h ⊢
  refine h.imp_of_mem ?_
  intro a b ha hb hab
  have hta : isTimingLine a = true := by
    unfold timingLines at ha
    exact (List.mem_filter.mp ha).2
  have htb : isTimingLine b = true := by
    unfold timingLines at hb
    exact (List.mem_filter.mp hb).2
  obtain ⟨fa, hfa, hea⟩ := tsStartMs_decomp hta
  obtain ⟨fb, hfb, heb⟩ := tsStartMs_decomp htb
  rw [hea, heb] at hab
  omega

theorem timingStartSecs_cons_pos {raw : List Char} {rest : List (List Char)}
    (ht : isTimingLine (pyStrip raw) = true) :
    timingStartSecs (raw :: rest)
      = tsStartSecs (pyStrip raw) :: timingStartSecs rest := by
  simp [timingStartSecs, timingLines, List.filter_cons, ht]

theorem timingStartSecs_cons_neg {raw : List Char} {rest : List (List Char)}
    (ht : ¬isTimingLine (pyStrip raw) = true) :
    timingStartSecs (raw :: rest) = timingStartSecs rest := by
  simp [timingStartSecs, timingLines, List.filter_cons, ht]

theorem timingStartSecs_suffix_sublist {rem rest : List (List Char)}
    (h : rem <:+ rest) : (timingStartSecs rem).Sublist (timingStartSecs rest) :=
  (((h.sublist.map pyStrip).filter isTimingLine).map tsStartSecs)

theorem parseLoopF_starts_sublist : ∀ f (L : List (List Char)) segs,
    parseLoopF f L = .ok segs →
    (segs.map TimestampedSegment.start_seconds).Sublist (timingStartSecs L) := by
  intro f
  induction f with
  | zero =>
    intro L segs h
    have hs : ([] : List TimestampedSegment) = segs := Except.ok.inj h
    subst hs
    simp
  | succ f ih =>
    intro L segs h
    cases L with
    | nil =>
      have hs : ([] : List TimestampedSegment) = segs := Except.ok.inj h
      subst hs
      simp
    | cons raw rest =>
      by_cases ht : isTimingLine (pyStrip raw) = true
      · simp only [parseLoopF] at h
        rw [if_pos ht] at h
        cases hsp : splitArrow (pyStrip raw) with
        | nil => rw [hsp] at h; simp at h
        | cons x xs =>
          cases xs with
          | nil => rw [hsp] at h; simp at h
          | cons y ys =>
            cases ys with
            | cons z zs => rw [hsp] at h; simp at h
            | nil =>
              rw [hsp] at h
              rcases hcr : collectText rest with ⟨parts, rem⟩
              rw [hcr] at h
              cases hpl : parseLoopF f rem with
              | error e => rw [hpl] at h; simp at h
              | ok tailSegs =>
                rw [hpl] at h
                have hsub := ih rem tailSegs hpl
                have hsubrest : (timingStartSecs rem).Sublist (timingStartSecs rest) := by
                  have hsuf := collectText_snd_suffix rest
                  rw [hcr] at hsuf
                  exact timingStartSecs_suffix_sublist hsuf
                by_cases hpe : parts.isEmpty
                · simp only [hpe, if_true] at h
                  have hs : tailSegs = segs := Except.ok.inj h
                  subst hs
                  rw [timingStartSecs_cons_pos ht]
                  exact (hsub.trans hsubrest).cons _
                · have hpe' : parts.isEmpty = false := by simpa using hpe
                  simp only [hpe', Bool.false_eq_true, if_false] at h
                  cases htt : time_to_seconds x with
                  | error e =>
                    rw [htt] at h
                    simp at h
                  | ok secs =>
                    rw [htt] at h
                    have hx : x = (pyStrip raw).take 12 := by
                      have h3 := hsp.symm.trans (timing_splitArrow ht)
                      injection h3
                    have hsecs : secs = tsStartSecs (pyStrip raw) := by
                      rw [hx] at htt
                      exact Except.ok.inj (htt.symm.trans (timing_take12_tts ht))
                    injection h with h'
                    subst h'
                    rw [timingStartSecs_cons_pos ht]
                    show (secs :: tailSegs.map TimestampedSegment.start_seconds).Sublist
                      (tsStartSecs (pyStrip raw) :: timingStartSecs rest)
                    rw [hsecs]
                    exact (hsub.trans hsubrest).cons₂ _
      · simp only [parseLoopF] at h
        rw [if_neg ht] at h
        rw [timingStartSecs_cons_neg ht]
        exact ih rest segs h

/-!  ### Idempotence of line cleaning  -/

theorem afterClose_none_iff {r : List Char} : afterClose r = none ↔ '>' ∉ r := by
  induction r with
  | nil => simp [afterClose]
  | cons c t ih =>
    by_cases hc : c = '>'
    · subst hc
      simp [afterClose]
    · simp [afterClose, hc, ih, Ne.symm hc]

theorem afterClose_suffix : ∀ {r r2 : List Char}, afterClose r = some r2 → r2 <:+ r := by
  intro r
  induction r with
  | nil => intro r2 h; cases h
  | cons c t ih =>
    intro r2 h
    by_cases hc : c = '>'
    · subst hc
      have h' : t = r2 := by simpa [afterClose] using h
      subst h'
      exact List.suffix_cons '>' t
    · simp only [afterClose, if_neg hc] at h
      exact (ih h).trans (List.suffix_cons c t)

theorem afterClose_some_length : ∀ {r r2 : List Char}, afterClose r = some r2 →
    r2.length < r.length := by
  intro r
  induction r with
  | nil => intro r2 h; cases h
  | cons c t ih =>
    intro r2 h
    by_cases hc : c = '>'
    · subst hc
      have h' : t = r2 := by simpa [afterClose] using h
      subst h'
      simp only [List.length_cons]
      omega
    · simp only [afterClose, if_neg hc] at h
      have := ih h
      simp only [List.length_cons]
      omega

theorem findTag_some_length {r r2 : List Char} (h : findTag r = some r2) :
    r2.length < r.length := by
  unfold findTag at h
  split at h
  · cases h
  · exact afterClose_some_length h

theorem findTag_some_suffix {r r2 : List Char} (h : findTag r = some r2) : r2 <:+ r := by
  unfold findTag at h
  split at h
  · cases h
  · exact afterClose_suffix h

theorem findTag_none_of_not_mem {r : List Char} (h : '>' ∉ r) : findTag r = none := by
  unfold findTag
  split
  · rfl
  · exact afterClose_none_iff.mpr h

theorem findTag_none_cases {r : List Char} (h : findTag r = none) :
    '>' ∉ r ∨ ∃ r', r = '>' :: r' := by
  unfold findTag at h
  split at h
  · rename_i t heq
    exact Or.inr ⟨_, rfl⟩
  · exact Or.inl (afterClose_none_iff.mp h)

theorem mem_subTagsF : ∀ f (l : List Char) c, c ∈ subTagsF f l → c ∈ l := by
  intro f
  induction f with
  | zero => intro l c h; exact h
  | succ f ih =>
    intro l c h
    cases l with
    | nil => cases h
    | cons a r =>
      by_cases ha : a = '<'
      · subst ha
        simp only [subTagsF, if_pos rfl] at h
        cases hft : findTag r with
        | some r2 =>
          rw [hft] at h
          exact List.mem_cons_of_mem _ ((findTag_some_suffix hft).sublist.subset (ih r2 c h))
        | none =>
          rw [hft] at h
          rcases List.mem_cons.mp h with h1 | h1
          · exact h1 ▸ List.mem_cons_self _ _
          · exact List.mem_cons_of_mem _ (ih r c h1)
      · simp only [subTagsF, if_neg ha] at h
        rcases List.mem_cons.mp h with h1 | h1
        · exact h1 ▸ List.mem_cons_self _ _
        · exact List.mem_cons_of_mem _ (ih r c h1)

theorem noTagB_cons_iff {c : Char} {r : List Char} :
    noTagB (c :: r) = true ↔
      (c = '<' → (findTag r).isNone = true) ∧ noTagB r = true := by
  simp only [noTagB, Bool.and_eq_true]
  constructor
  · rintro ⟨h1, h2⟩
    refine ⟨?_, h2⟩
    intro hc
    rwa [if_pos hc] at h1
  · rintro ⟨h1, h2⟩
    refine ⟨?_, h2⟩
    by_cases hc : c = '<'
    · rw [if_pos hc]; exact h1 hc
    · rw [if_neg hc]

theorem noTagB_suffix : ∀ {l₂ l₁ : List Char}, l₁ <:+ l₂ → noTagB l₂ = true →
    noTagB l₁ = true := by
  intro l₂
  induction l₂ with
  | nil =>
    intro l₁ h _
    rw [List.suffix_nil.mp h]
    rfl
  | cons c r ih =>
    intro l₁ h hn
    rcases List.suffix_cons_iff.mp h with h1 | h1
    · subst h1; exact hn
    · exact ih h1 (noTagB_cons_iff.mp hn).2

theorem normB_cons_parts {c : Char} {r : List Char} (h : normB (c :: r) = true) :
    normB r = true := by
  simp only [normB, Bool.and_eq_true] at h
  exact h.2

theorem normB_space_head {c : Char} {r : List Char} (h : normB (c :: r) = true)
    (hs : isSpace c = true) : c = ' ' ∧ ∃ c2 t, r = c2 :: t ∧ isSpace c2 = false := by
  simp only [normB, Bool.and_eq_true] at h
  obtain ⟨h1, -⟩ := h
  rw [if_pos hs, Bool.and_eq_true] at h1
  obtain ⟨h2, h3⟩ := h1
  refine ⟨by simpa using h2, ?_⟩
  cases r with
  | nil => cases h3
  | cons c2 t => exact ⟨c2, t, rfl, by simpa using h3⟩

theorem normB_suffix : ∀ {l₂ l₁ : List Char}, l₁ <:+ l₂ → normB l₂ = true →
    normB l₁ = true := by
  intro l₂
  induction l₂ with
  | nil =>
    intro l₁ h _
    rw [List.suffix_nil.mp h]
    rfl
  | cons c r ih =>
    intro l₁ h hn
    rcases List.suffix_cons_iff.mp h with h1 | h1
    · subst h1; exact hn
    · exact ih h1 (normB_cons_parts hn)

theorem subTagsF_cons_lt (f : Nat) (r : List Char) :
    subTagsF (f + 1) ('<' :: r)
      = match findTag r with
        | some r2 => subTagsF f r2
        | none => '<' :: subTagsF f r := rfl

theorem subTagsF_cons_ne {c : Char} (hc : ¬(c = '<')) (f : Nat) (r : List Char) :
    subTagsF (f + 1) (c :: r) = c :: subTagsF f r := by
  simp only [subTagsF, if_neg hc]

theorem subTagsF_noTag : ∀ f (l : List Char), l.length ≤ f →
    noTagB (subTagsF f l) = true := by
  intro f
  induction f with
  | zero =>
    intro l h
    have hl : l = [] := List.length_eq_zero.mp (Nat.le_zero.mp h)
    subst hl
    rfl
  | succ f ih =>
    intro l hlen
    cases l with
    | nil => rfl
    | cons c r =>
      simp only [List.length_cons] at hlen
      by_cases hc : c = '<'
      · subst hc
        rw [subTagsF_cons_lt]
        cases hft : findTag r with
        | some r2 =>
          show noTagB (subTagsF f r2) = true
          exact ih r2 (by have := findTag_some_length hft; omega)
        | none =>
          show noTagB ('<' :: subTagsF f r) = true
          rw [noTagB_cons_iff]
          refine ⟨fun _ => ?_, ih r (by omega)⟩
          rcases findTag_none_cases hft with h1 | ⟨r', hr⟩
          · rw [findTag_none_of_not_mem (fun hmem => h1 (mem_subTagsF f r '>' hmem))]
            rfl
          · subst hr
            cases f with
            | zero => simp at hlen
            | succ f2 =>
              rw [subTagsF_cons_ne (by decide) f2 r']
              rfl
      · rw [subTagsF_cons_ne hc]
        rw [noTagB_cons_iff]
        exact ⟨fun h1 => absurd h1 hc, ih r (by omega)⟩

theorem subTagsF_id_of_noTag : ∀ f (l : List Char), noTagB l = true →
    subTagsF f l = l := by
  intro f
  induction f with
  | zero => intro l _; rfl
  | succ f ih =>
    intro l h
    cases l with
    | nil => rfl
    | cons c r =>
      obtain ⟨h1, h2⟩ := noTagB_cons_iff.mp h
      by_cases hc : c = '<'
      · subst hc
        have hft : findTag r = none := Option.isNone_iff_eq_none.mp (h1 rfl)
        rw [subTagsF_cons_lt, hft]
        show '<' :: subTagsF f r = '<' :: r
        rw [ih r h2]
      · rw [subTagsF_cons_ne hc, ih r h2]

theorem tsMarker_some_parts : ∀ {l rest : List Char}, tsMarker? l = some rest →
    ∃ r, l = '<' :: r ∧ findTag r ≠ none := by
  intro l rest h
  unfold tsMarker? at h
  split at h
  · rename_i a b c d e f g h2 i rest2
    refine ⟨_, rfl, ?_⟩
    split at h
    · rename_i hdig
      have ha : a.isDigit = true := by
        simp only [Bool.and_eq_true] at hdig
        tauto
      intro hnone
      rcases findTag_none_cases hnone with h1 | ⟨r', heq⟩
      · exact h1 (by simp)
      · have hag : a = '>' := by injection heq
        exact digit_ne ha (by decide) hag
    · cases h
  · cases h

theorem subTsF_id_of_noTag : ∀ f (l : List Char), noTagB l = true →
    subTsF f l = l := by
  intro f
  induction f with
  | zero => intro l _; rfl
  | succ f ih =>
    intro l h
    cases l with
    | nil => rfl
    | cons c r =>
      obtain ⟨h1, h2⟩ := noTagB_cons_iff.mp h
      cases htm : tsMarker? (c :: r) with
      | some rest =>
        exfalso
        obtain ⟨r', heq, hne⟩ := tsMarker_some_parts htm
        have hc : c = '<' := by injection heq
        have hr : r = r' := by injection heq
        subst hc
        subst hr
        exact hne (Option.isNone_iff_eq_none.mp (h1 rfl))
      | none =>
        simp only [subTsF, htm]
        rw [ih r h2]

theorem coll_cons_nonspace {c : Char} (hc : isSpace c = false) (r : List Char) :
    coll (c :: r) = c :: coll r := by
  simp [coll, hc]

theorem coll_cons_space_nil {c : Char} (hc : isSpace c = true) {r : List Char}
    (hr : coll r = []) : coll (c :: r) = [] := by
  simp [coll, hc, hr]

theorem coll_cons_space_cons {c d : Char} {r t : List Char} (hc : isSpace c = true)
    (hr : coll r = d :: t) :
    coll (c :: r) = if d = ' ' then d :: t else ' ' :: d :: t := by
  simp only [coll, if_pos hc, hr]

theorem mem_coll_cases : ∀ {l : List Char} {c : Char}, c ∈ coll l → c = ' ' ∨ c ∈ l := by
  intro l
  induction l with
  | nil => intro c h; cases h
  | cons a r ih =>
    intro c h
    by_cases ha : isSpace a
    · cases hcr : coll r with
      | nil => rw [coll_cons_space_nil ha hcr] at h; cases h
      | cons d t =>
        rw [coll_cons_space_cons ha hcr] at h
        by_cases hd : d = ' '
        · rw [if_pos hd] at h
          rcases ih (hcr ▸ h) with h1 | h1
          · exact Or.inl h1
          · exact Or.inr (List.mem_cons_of_mem a h1)
        · rw [if_neg hd] at h
          rcases List.mem_cons.mp h with h1 | h1
          · exact Or.inl h1
          · rcases ih (hcr ▸ h1) with h2 | h2
            · exact Or.inl h2
            · exact Or.inr (List.mem_cons_of_mem a h2)
    · have ha' : isSpace a = false := by simpa using ha
      rw [coll_cons_nonspace ha'] at h
      rcases List.mem_cons.mp h with h1 | h1
      · exact Or.inr (h1 ▸ List.mem_cons_self a r)
      · rcases ih h1 with h2 | h2
        · exact Or.inl h2
        · exact Or.inr (List.mem_cons_of_mem a h2)

theorem normB_cons_nonspace {c : Char} (hc : isSpace c = false) (r : List Char) :
    normB (c :: r) = normB r := by
  simp [normB, hc]

theorem normB_coll : ∀ l : List Char, normB (coll l) = true := by
  intro l
  induction l with
  | nil => rfl
  | cons c r ih =>
    by_cases hc : isSpace c
    · cases hcr : coll r with
      | nil => rw [coll_cons_space_nil hc hcr]; rfl
      | cons d t =>
        rw [coll_cons_space_cons hc hcr]
        rw [hcr] at ih
        by_cases hd : d = ' '
        · rw [if_pos hd]
          exact ih
        · rw [if_neg hd]
          have hds : isSpace d = false := by
            cases hsd : isSpace d
            · rfl
            · obtain ⟨hd', -⟩ := normB_space_head ih hsd
              exact absurd hd' hd
          rw [show normB (' ' :: d :: t)
              = (((' ' == ' ') && !isSpace d) && normB (d :: t)) from rfl]
          rw [hds, ih]
          rfl
    · have hc' : isSpace c = false := by simpa using hc
      rw [coll_cons_nonspace hc', normB_cons_nonspace hc']
      exact ih

theorem coll_id_of_norm : ∀ (l : List Char), normB l = true → coll l = l := by
  intro l
  induction l with
  | nil => intro _; rfl
  | cons c r ih =>
    intro h
    by_cases hc : isSpace c
    · obtain ⟨hc', c2, t, hr, hc2⟩ := normB_space_head h hc
      subst hr
      have hcr : coll (c2 :: t) = c2 :: t := ih (normB_cons_parts h)
      rw [coll_cons_space_cons hc hcr]
      have hc2' : ¬(c2 = ' ') := by
        intro he
        rw [he] at hc2
        exact absurd hc2 (by decide)
      rw [if_neg hc2', hc']
    · have hc' : isSpace c = false := by simpa using hc
      rw [coll_cons_nonspace hc', ih (normB_cons_parts h)]

theorem noTagB_coll : ∀ (l : List Char), noTagB l = true → noTagB (coll l) = true := by
  intro l
  induction l with
  | nil => intro _; rfl
  | cons c r ih =>
    intro h
    obtain ⟨h1, h2⟩ := noTagB_cons_iff.mp h
    by_cases hc : isSpace c
    · cases hcr : coll r with
      | nil => rw [coll_cons_space_nil hc hcr]; rfl
      | cons d t =>
        rw [coll_cons_space_cons hc hcr]
        have ihr := ih h2
        rw [hcr] at ihr
        by_cases hd : d = ' '
        · rw [if_pos hd]
          exact ihr
        · rw [if_neg hd]
          rw [noTagB_cons_iff]
          exact ⟨fun hsp => absurd hsp (by decide), ihr⟩
    · have hc' : isSpace c = false := by simpa using hc
      rw [coll_cons_nonspace hc']
      rw [noTagB_cons_iff]
      refine ⟨?_, ih h2⟩
      intro hceq
      subst hceq
      have hft : findTag r = none := Option.isNone_iff_eq_none.mp (h1 rfl)
      rw [Option.isNone_iff_eq_none]
      rcases findTag_none_cases hft with hnm | ⟨r', hr⟩
      · apply findTag_none_of_not_mem
        intro hmem
        rcases mem_coll_cases hmem with h3 | h3
        · exact absurd h3 (by decide)
        · exact hnm h3
      · subst hr
        rw [coll_cons_nonspace (by decide)]
        rfl

theorem dropSp_suffix : ∀ l : List Char, dropSp l <:+ l := by
  intro l
  induction l with
  | nil => exact List.suffix_refl []
  | cons c r ih =>
    by_cases hc : c = ' '
    · simp only [dropSp, if_pos hc]
      exact ih.trans (List.suffix_cons c r)
    · simp only [dropSp, if_neg hc]
      exact List.suffix_refl _

theorem dropSp_head_ne : ∀ {l : List Char} {c : Char} {t : List Char},
    dropSp l = c :: t → ¬(c = ' ') := by
  intro l
  induction l with
  | nil => intro c t h; cases h
  | cons a r ih =>
    intro c t h
    by_cases ha : a = ' '
    · simp only [dropSp, if_pos ha] at h
      exact ih h
    · simp only [dropSp, if_neg ha] at h
      injection h with h1 h2
      rw [← h1]
      exact ha

theorem dropSp_id_of_head {l : List Char} (h : ∀ c t, l = c :: t → ¬(c = ' ')) :
    dropSp l = l := by
  cases l with
  | nil => rfl
  | cons c r => simp only [dropSp, if_neg (h c r rfl)]

theorem normB_getLast_not_space : ∀ {t : List Char}, normB t = true →
    ∀ c, t.getLast? = some c → isSpace c = false := by
  intro t
  induction t with
  | nil => intro _ c h; cases h
  | cons a r ih =>
    intro hn c h
    cases r with
    | nil =>
      have hac : a = c := by simpa using h
      subst hac
      cases hs : isSpace a
      · rfl
      · exfalso
        simp only [normB, Bool.and_eq_true] at hn
        obtain ⟨h1, -⟩ := hn
        rw [if_pos hs, Bool.and_eq_true] at h1
        exact absurd h1.2 (by simp)
    | cons b t' =>
      have hlast : (b :: t').getLast? = some c := by
        rw [← List.getLast?_cons_cons]
        exact h
      exact ih (normB_cons_parts hn) c hlast

theorem pyStrip_id_of_norm {t : List Char} (hn : normB t = true)
    (hh : ∀ c t', t = c :: t' → isSpace c = false) : pyStrip t = t := by
  unfold pyStrip
  have h1 : t.dropWhile isSpace = t := by
    cases t with
    | nil => rfl
    | cons c r =>
      rw [List.dropWhile_cons, if_neg (by simp [hh c r rfl])]
  rw [h1]
  have h2 : t.reverse.dropWhile isSpace = t.reverse := by
    cases hrev : t.reverse with
    | nil => rfl
    | cons c r =>
      have hlast : t.getLast? = some c := by
        rw [← List.head?_reverse, hrev]
        rfl
      rw [List.dropWhile_cons,
        if_neg (by simp [normB_getLast_not_space hn c hlast])]
  rw [h2, List.reverse_reverse]

theorem joinSplit_normB (l : List Char) : normB (joinSplit l) = true :=
  normB_suffix (dropSp_suffix (coll l)) (normB_coll l)

theorem joinSplit_noTag {l : List Char} (h : noTagB l = true) :
    noTagB (joinSplit l) = true :=
  noTagB_suffix (dropSp_suffix (coll l)) (noTagB_coll l h)

theorem joinSplit_head_not_space (l : List Char) :
    ∀ c t', joinSplit l = c :: t' → isSpace c = false := by
  intro c t' h
  have hne : ¬(c = ' ') := dropSp_head_ne h
  cases hs : isSpace c
  · rfl
  · exfalso
    have hnj : normB (joinSplit l) = true := joinSplit_normB l
    rw [h] at hnj
    obtain ⟨he, -⟩ := normB_space_head hnj hs
    exact hne he

theorem cleanLine_eq_joinSplit (l : List Char) :
    cleanLine l = joinSplit (subTags (subTs l)) := by
  unfold cleanLine
  exact pyStrip_id_of_norm (joinSplit_normB _) (joinSplit_head_not_space _)

theorem subTags_noTag (l : List Char) : noTagB (subTags l) = true :=
  subTagsF_noTag l.length l (le_refl _)

theorem cleanLine_noTag (l : List Char) : noTagB (cleanLine l) = true := by
  rw [cleanLine_eq_joinSplit]
  exact joinSplit_noTag (subTags_noTag _)

theorem cleanLine_normB (l : List Char) : normB (cleanLine l) = true := by
  rw [cleanLine_eq_joinSplit]
  exact joinSplit_normB _

theorem cleanLine_head_not_space (l : List Char) :
    ∀ c t', cleanLine l = c :: t' → isSpace c = false := by
  intro c t' h
  rw [cleanLine_eq_joinSplit] at h
  exact joinSplit_head_not_space _ c t' h

theorem cleanLine_id_of_normal {t : List Char} (hn : normB t = true)
    (hnt : noTagB t = true) (hh : ∀ c t', t = c :: t' → isSpace c = false) :
    cleanLine t = t := by
  unfold cleanLine
  rw [show subTs t = t from subTsF_id_of_noTag _ t hnt]
  rw [show subTags t = t from subTagsF_id_of_noTag _ t hnt]
  unfold joinSplit
  rw [coll_id_of_norm t hn]
  rw [dropSp_id_of_head (fun c t' he hsp => by
    have hisp := hh c t' he
    rw [hsp] at hisp
    exact absurd hisp (by decide))]
  exact pyStrip_id_of_norm hn hh

/-!  ### Transcript reconstruction on well-formed documents  -/

theorem keepLine_empty {t : List Char} (h : t.isEmpty = true) : keepLine t = false := by
  unfold keepLine
  rw [h]
  rfl

theorem keepLine_arrow {t : List Char} (h : hasSubstr arrowTok t = true) :
    keepLine t = false := by
  simp [keepLine, h]

theorem keepLine_ignorable {t : List Char} (h : ignorableLine t = true) :
    keepLine t = false := by
  unfold ignorableLine at h
  rw [Bool.and_eq_true] at h
  obtain ⟨h1, -⟩ := h
  rcases (by simpa [Bool.or_eq_true] using h1 :
      ((((t = [] ∨ "WEBVTT".data <+: t) ∨ "NOTE".data <+: t) ∨ "Kind:".data <+: t) ∨
        "Language:".data <+: t) ∨ isDigitOnly t = true)
    with ((((h2 | h2) | h2) | h2) | h2) | h2 <;>
    simp [keepLine, List.isPrefixOf_iff_prefix, h2]

theorem keepLine_timing {t : List Char} (h : isTimingLine t = true) :
    keepLine t = false :=
  keepLine_arrow (Bool.and_eq_true_iff.mp h).1

theorem contentFragments_cons_skip {raw : List Char} {rest : List (List Char)}
    (h : keepLine (pyStrip raw) = false) :
    contentFragments (raw :: rest) = contentFragments rest := by
  unfold contentFragments
  rw [List.filterMap_cons]
  have hnone : contentFrag raw = none := by
    simp [contentFrag, h]
  rw [hnone]

theorem contentFragments_cons_keep {raw : List Char} {rest : List (List Char)}
    (h : keepLine (pyStrip raw) = true) :
    contentFragments (raw :: rest)
      = if (cleanLine (pyStrip raw)).isEmpty then contentFragments rest
        else cleanLine (pyStrip raw) :: contentFragments rest := by
  unfold contentFragments
  rw [List.filterMap_cons]
  by_cases hc : (cleanLine (pyStrip raw)).isEmpty
  · rw [if_pos hc]
    have hnone : contentFrag raw = none := by
      simp [contentFrag, h, hc]
    rw [hnone]
  · rw [if_neg hc]
    have hc' : (cleanLine (pyStrip raw)).isEmpty = false := by simpa using hc
    have hsome : contentFrag raw = some (cleanLine (pyStrip raw)) := by
      simp [contentFrag, h, hc']
    rw [hsome]

theorem goodF_cons_doc (raw : List Char) (rest : List (List Char)) :
    goodF (raw :: rest) false
      = (if timingOkB (pyStrip raw) then goodF rest true
         else if ignorableLine (pyStrip raw) then goodF rest false else false) := rfl

theorem goodF_cons_blk (raw : List Char) (rest : List (List Char)) :
    goodF (raw :: rest) true
      = (if (pyStrip raw).isEmpty then goodF rest false
         else if hasSubstr arrowTok (pyStrip raw) then
           timingOkB (pyStrip raw) && goodF rest true
         else if keepLine (pyStrip raw) then goodF rest true else false) := rfl

theorem collectText_cons_blank {raw : List Char} {rest : List (List Char)}
    (h : (pyStrip raw).isEmpty = true) : collectText (raw :: rest) = ([], rest) := by
  simp [collectText, h]

theorem collectText_cons_arrow {raw : List Char} {rest : List (List Char)}
    (h1 : (pyStrip raw).isEmpty = false) (h2 : hasSubstr arrowTok (pyStrip raw) = true) :
    collectText (raw :: rest) = ([], raw :: rest) := by
  simp [collectText, h1, h2]

theorem collectText_cons_text {raw : List Char} {rest : List (List Char)}
    {parts rem : List (List Char)}
    (h1 : (pyStrip raw).isEmpty = false) (h2 : hasSubstr arrowTok (pyStrip raw) = false)
    (hcr : collectText rest = (parts, rem)) :
    collectText (raw :: rest)
      = (if (cleanLine (pyStrip raw)).isEmpty then parts
         else cleanLine (pyStrip raw) :: parts, rem) := by
  simp [collectText, h1, h2, hcr]

theorem collect_good : ∀ (R : List (List Char)) parts rem, goodF R true = true →
    collectText R = (parts, rem) →
    contentFragments R = parts ++ contentFragments rem ∧ goodF rem false = true := by
  intro R
  induction R with
  | nil =>
    intro parts rem _ hc
    rw [show collectText [] = (([] : List (List Char)), ([] : List (List Char))) from rfl,
      Prod.mk.injEq] at hc
    obtain ⟨hp, hr⟩ := hc
    subst hp
    subst hr
    exact ⟨rfl, rfl⟩
  | cons raw rest ih =>
    intro parts rem hg hc
    rw [goodF_cons_blk] at hg
    by_cases hb : (pyStrip raw).isEmpty
    · rw [if_pos hb] at hg
      rw [collectText_cons_blank hb, Prod.mk.injEq] at hc
      obtain ⟨hp, hr⟩ := hc
      subst hp
      subst hr
      refine ⟨?_, hg⟩
      rw [contentFragments_cons_skip (keepLine_empty hb)]
      rfl
    · have hb' : (pyStrip raw).isEmpty = false := by simpa using hb
      rw [if_neg hb] at hg
      by_cases ha : hasSubstr arrowTok (pyStrip raw)
      · rw [if_pos ha, Bool.and_eq_true] at hg
        obtain ⟨htok, hgt⟩ := hg
        rw [collectText_cons_arrow hb' ha, Prod.mk.injEq] at hc
        obtain ⟨hp, hr⟩ := hc
        subst hp
        subst hr
        refine ⟨rfl, ?_⟩
        rw [goodF_cons_doc, if_pos htok]
        exact hgt
      · have ha' : hasSubstr arrowTok (pyStrip raw) = false := by simpa using ha
        rw [if_neg ha] at hg
        by_cases hk : keepLine (pyStrip raw)
        · rw [if_pos hk] at hg
          rcases hcr : collectText rest with ⟨parts', rem'⟩
          rw [collectText_cons_text hb' ha' hcr, Prod.mk.injEq] at hc
          obtain ⟨hp, hr⟩ := hc
          subst hr
          obtain ⟨hcf, hgd⟩ := ih parts' rem' hg hcr
          refine ⟨?_, hgd⟩
          rw [contentFragments_cons_keep hk]
          by_cases hce : (cleanLine (pyStrip raw)).isEmpty
          · rw [if_pos hce]
            rw [if_pos hce] at hp
            subst hp
            exact hcf
          · rw [if_neg hce]
            rw [if_neg hce] at hp
            subst hp
            rw [hcf]
            rfl
        · rw [if_neg hk] at hg
          cases hg

theorem splitArrow_len2 {l : List Char} (h : (splitArrow l).length = 2) :
    ∃ st en, splitArrow l = [st, en] := by
  cases hsp : splitArrow l with
  | nil => rw [hsp] at h; simp at h
  | cons x xs =>
    cases xs with
    | nil => rw [hsp] at h; simp at h
    | cons y ys =>
      cases ys with
      | nil => exact ⟨x, y, rfl⟩
      | cons z zs =>
        rw [hsp] at h
        simp only [List.length_cons] at h
        omega

theorem timing_split2_tts {l st en : List Char} (ht : isTimingLine l = true)
    (hse : splitArrow l = [st, en]) :
    time_to_seconds st = .ok (tsStartSecs l) := by
  have h3 := hse.symm.trans (timing_splitArrow ht)
  have hst : st = l.take 12 := by injection h3
  rw [hst]
  exact timing_take12_tts ht

theorem joinSp_append_ne : ∀ (p q : List (List Char)), p ≠ [] → q ≠ [] →
    joinSp (p ++ q) = joinSp p ++ ' ' :: joinSp q := by
  intro p
  induction p with
  | nil => intro q h _; exact absurd rfl h
  | cons x p' ih =>
    intro q _ hq
    cases p' with
    | nil =>
      cases q with
      | nil => exact absurd rfl hq
      | cons y q' => rfl
    | cons x2 p'' =>
      have hrec := ih q (by simp) hq
      show x ++ ' ' :: joinSp (x2 :: p'' ++ q) = (x ++ ' ' :: joinSp (x2 :: p'')) ++ ' ' :: joinSp q
      rw [hrec]
      simp

theorem joinSp_join : ∀ pl : List (List (List Char)), (∀ p ∈ pl, p ≠ []) →
    joinSp (pl.map joinSp) = joinSp pl.flatten := by
  intro pl
  induction pl with
  | nil => intro _; rfl
  | cons p pl' ih =>
    intro hne
    cases pl' with
    | nil =>
      show joinSp [joinSp p] = joinSp (p ++ [])
      rw [List.append_nil]
      rfl
    | cons q pl'' =>
      have hq : q ≠ [] := hne q (by simp)
      have hjoin_ne : (q :: pl'').flatten ≠ [] := by
        intro hcon
        have : q = [] := by
          have := congrArg List.length hcon
          simp only [List.flatten, List.length_append, List.length_nil] at this
          cases q with
          | nil => rfl
          | cons a b => simp at this
        exact hq this
      show joinSp (joinSp p :: joinSp q :: pl''.map joinSp)
        = joinSp (p ++ (q :: pl'').flatten)
      rw [joinSp_append_ne p ((q :: pl'').flatten) (hne p (by simp)) hjoin_ne]
      have hrec := ih (fun p' hp' => hne p' (List.mem_cons_of_mem p hp'))
      rw [← hrec]
      rfl

theorem parse_good : ∀ f (L : List (List Char)), L.length < f → goodF L false = true →
    ∃ (segs : List TimestampedSegment) (pl : List (List (List Char))),
      parseLoopF f L = .ok segs ∧
      contentFragments L = pl.flatten ∧
      segs.map TimestampedSegment.text = pl.map joinSp ∧
      ∀ p ∈ pl, p ≠ [] := by
  intro f
  induction f with
  | zero =>
    intro L h _
    omega
  | succ f ih =>
    intro L hlen hg
    cases L with
    | nil => exact ⟨[], [], rfl, rfl, rfl, by simp⟩
    | cons raw rest =>
      simp only [List.length_cons] at hlen
      rw [goodF_cons_doc] at hg
      by_cases htm : timingOkB (pyStrip raw)
      · rw [if_pos htm] at hg
        have hti : isTimingLine (pyStrip raw) = true := (Bool.and_eq_true_iff.mp htm).1
        have hl2 : (splitArrow (pyStrip raw)).length = 2 := by
          have := (Bool.and_eq_true_iff.mp htm).2
          simpa using this
        obtain ⟨st, en, hse⟩ := splitArrow_len2 hl2
        rcases hcr : collectText rest with ⟨parts, rem⟩
        obtain ⟨hcf, hgd⟩ := collect_good rest parts rem hg hcr
        have hremlen : rem.length ≤ rest.length := by
          have := collectText_snd_length rest
          rw [hcr] at this
          exact this
        obtain ⟨segs', pl', hok', hcf', hmap', hne'⟩ := ih rem (by omega) hgd
        have htts : time_to_seconds st = .ok (tsStartSecs (pyStrip raw)) :=
          timing_split2_tts hti hse
        by_cases hpe : parts.isEmpty
        · have hparse : parseLoopF (f + 1) (raw :: rest) = .ok segs' := by
            simp only [parseLoopF]
            rw [if_pos hti, hse, hcr]
            simp only [hok', hpe, if_true]
          have hpnil : parts = [] := by
            cases parts with
            | nil => rfl
            | cons a b => simp [List.isEmpty] at hpe
          subst hpnil
          refine ⟨segs', pl', hparse, ?_, hmap', hne'⟩
          rw [contentFragments_cons_skip (keepLine_timing hti), hcf,
            List.nil_append, hcf']
        · have hpe' : parts.isEmpty = false := by simpa using hpe
          have hparse : parseLoopF (f + 1) (raw :: rest)
              = .ok ({ start_time := st.take 8, end_time := en.take 8,
                       text := joinSp parts,
                       start_seconds := tsStartSecs (pyStrip raw) } :: segs') := by
            simp only [parseLoopF]
            rw [if_pos hti, hse, hcr]
            simp only [hok', htts, hpe']
            rfl
          refine ⟨_, parts :: pl', hparse, ?_, ?_, ?_⟩
          · rw [contentFragments_cons_skip (keepLine_timing hti), hcf, hcf']
            rfl
          · show joinSp parts :: segs'.map TimestampedSegment.text
              = joinSp parts :: pl'.map joinSp
            rw [hmap']
          · intro p hp
            rcases List.mem_cons.mp hp with h1 | h1
            · subst h1
              intro hcon
              rw [hcon] at hpe
              exact hpe rfl
            · exact hne' p h1
      · rw [if_neg htm] at hg
        by_cases hig : ignorableLine (pyStrip raw)
        · rw [if_pos hig] at hg
          have hnoarrow : hasSubstr arrowTok (pyStrip raw) = false := by
            unfold ignorableLine at hig
            rw [Bool.and_eq_true] at hig
            simpa using hig.2
          have hti : isTimingLine (pyStrip raw) = false := by
            unfold isTimingLine
            rw [hnoarrow]
            rfl
          obtain ⟨segs, pl, hok, hcf, hmap, hne⟩ := ih rest (by omega) hg
          refine ⟨segs, pl, ?_, ?_, hmap, hne⟩
          · simp only [parseLoopF]
            rw [if_neg (by simp [hti])]
            exact hok
          · rw [contentFragments_cons_skip (keepLine_ignorable hig)]
            exact hcf
        · rw [if_neg hig] at hg
          cases hg

/-!  ### Claim theorems  -/

/-- C1: on the two-cue WebVTT input
`"00:00:01.000 --> 00:00:03.000\nHello world\n\n00:00:05.500 --> 00:00:07.000\nSecond line\n"`,
`_parse_vtt_timestamps` returns exactly the two segments
`{start_time:"00:00:01", end_time:"00:00:03", text:"Hello world", start_seconds:1}` and
`{start_time:"00:00:05", end_time:"00:00:07", text:"Second line", start_seconds:5}`,
in that order. -/
theorem C1_two_cue_segment_extraction :
    parse_vtt_timestamps
      "00:00:01.000 --> 00:00:03.000\nHello world\n\n00:00:05.500 --> 00:00:07.000\nSecond line\n".data
    = .ok [⟨"00:00:01".data, "00:00:03".data, "Hello world".data, 1⟩,
           ⟨"00:00:05".data, "00:00:07".data, "Second line".data, 5⟩] := by rfl

/-- C2 counterexample: on the input `"Hello\n00:00:01.000 --> 00:00:02.000\nWorld"`
the segment pass emits one segment (with text `"World"`), yet the flat
transcript is `"Hello World"`, which differs from the space-joined
segment texts.  This refutes the claim that the equality holds for every
input with at least one segment. -/
theorem C2_counterexample :
    parse_vtt_timestamps "Hello\n00:00:01.000 --> 00:00:02.000\nWorld".data
      = .ok [⟨"00:00:01".data, "00:00:02".data, "World".data, 1⟩] ∧
    parse_vtt_content "Hello\n00:00:01.000 --> 00:00:02.000\nWorld".data = "Hello World".data ∧
    joinSp ["World".data] ≠ "Hello World".data :=
  ⟨rfl, rfl, by decide⟩

/-- C2 (amended): for every well-formed document — whose stripped lines
consist of cue blocks (a well-behaved cue-timing line followed by cue
text lines that are non-blank, contain no `-->`, are not digit-only and
not header lines, terminated by a blank line, another timing line, or the
end of input) interleaved with ignorable junk outside the blocks — the
parser succeeds and the flat transcript equals the space-joined
concatenation of the segment texts in emission order. -/
theorem C2_transcript_reconstruction_wellformed (s : List Char)
    (h : goodF (splitOnChar '\n' s) false = true) :
    ∃ segs, parse_vtt_timestamps s = .ok segs ∧
      parse_vtt_content s = joinSp (segs.map TimestampedSegment.text) := by
  obtain ⟨segs, pl, hok, hcf, hmap, hne⟩ :=
    parse_good ((splitOnChar '\n' s).length + 1) (splitOnChar '\n' s) (by omega) h
  refine ⟨segs, hok, ?_⟩
  unfold parse_vtt_content
  rw [hcf, hmap]
  exact (joinSp_join pl hne).symm

/-- C2 witness: the two-cue document of C1 is well-formed and its
transcript equals the joined segment texts. -/
theorem C2_transcript_reconstruction_witness :
    ∃ segs, parse_vtt_timestamps
        "00:00:01.000 --> 00:00:03.000\nHello world\n\n00:00:05.500 --> 00:00:07.000\nSecond line\n".data
      = .ok segs ∧
      parse_vtt_content
        "00:00:01.000 --> 00:00:03.000\nHello world\n\n00:00:05.500 --> 00:00:07.000\nSecond line\n".data
      = joinSp (segs.map TimestampedSegment.text) :=
  C2_transcript_reconstruction_wellformed _ (by decide)

/-- C3 counterexample: `_parse_vtt_timestamps` raises `ValueError` on an
input whose cue-timing line contains a second `" --> "` separator (the
tuple unpacking `start, end = line.split(" --> ")` sees three parts).
This refutes the claim that no input can make the parser throw. -/
theorem C3_counterexample :
    parse_vtt_timestamps "00:00:01.000 --> 00:00:02.000 --> 00:00:03.000".data
      = .error () := by rfl

/-- C3 (amended): `_parse_vtt_content` is total (it never raises, which
the model reflects by returning a plain string), and
`_parse_vtt_timestamps` returns normally on every input in which no
stripped line both matches the cue-timing pattern and contains a second
`" --> "` separator — the tuple unpacking of the split is the parser's
only failure point. -/
theorem C3_no_throw_amended (s : List Char)
    (h : ∀ raw ∈ splitOnChar '\n' s, isTimingLine (pyStrip raw) = true →
      (splitArrow (pyStrip raw)).length = 2) :
    ∃ segs, parse_vtt_timestamps s = .ok segs :=
  parseLoopF_ok ((splitOnChar '\n' s).length + 1) (splitOnChar '\n' s) (by omega) h

/-- C3 witness: a well-formed document parses without an exception. -/
theorem C3_no_throw_witness :
    ∃ segs, parse_vtt_timestamps
      "WEBVTT\n\n00:00:01.000 --> 00:00:03.000\nHello\n".data = .ok segs :=
  C3_no_throw_amended _ (by decide)

/-- C7: for every input whose cue-timing lines carry non-decreasing start
timestamps (compared at full millisecond precision), the segment list the
parser returns is non-decreasing in `start_seconds`: segments are emitted
in document order and the parser performs no sorting. -/
theorem C7_segments_chronological (s : List Char) (segs : List TimestampedSegment)
    (hms : List.Pairwise (· ≤ ·) (timingStartMs (splitOnChar '\n' s)))
    (hok : parse_vtt_timestamps s = .ok segs) :
    List.Pairwise (· ≤ ·) (segs.map TimestampedSegment.start_seconds) :=
  List.Pairwise.sublist (parseLoopF_starts_sublist _ _ _ hok) (pairwise_ms_to_secs hms)

/-- C7 witness: the two-cue document of C1 has non-decreasing cue starts
and its segments come out in non-decreasing `start_seconds` order. -/
theorem C7_segments_chronological_witness :
    List.Pairwise (· ≤ ·)
      (([⟨"00:00:01".data, "00:00:03".data, "Hello world".data, 1⟩,
         ⟨"00:00:05".data, "00:00:07".data, "Second line".data, 5⟩] :
        List TimestampedSegment).map TimestampedSegment.start_seconds) :=
  C7_segments_chronological
    "00:00:01.000 --> 00:00:03.000\nHello world\n\n00:00:05.500 --> 00:00:07.000\nSecond line\n".data
    _ (by decide) (by rfl)

/-- C4 counterexample: with `duration = 0` (present), the Duration line
renders `"N/A"` rather than `"0s"`, because the Python conditional
`f"{metadata.duration}s" if metadata.duration else "N/A"` treats 0 as
falsy.  This refutes the claim for `n = 0`. -/
theorem C4_counterexample :
    duration_str (some 0) = "N/A".data ∧ duration_str (some 0) ≠ intDec 0 ++ ['s'] := by
  decide

/-- C4 (amended): the Duration line renders `"<n>s"` exactly when the
duration is present and non-zero, and `"N/A"` when it is absent or zero;
the Views line renders the thousands-grouped decimal exactly when the
view count is present and non-zero (`1234567` renders `"1,234,567"`), and
`"N/A"` when absent or zero. -/
theorem C4_header_fields_amended :
    (∀ n : Int, n ≠ 0 → duration_str (some n) = intDec n ++ ['s']) ∧
    duration_str none = "N/A".data ∧
    duration_str (some 0) = "N/A".data ∧
    (∀ n : Int, n ≠ 0 → view_count_str (some n) = commaFmt n) ∧
    view_count_str none = "N/A".data ∧
    view_count_str (some 0) = "N/A".data ∧
    view_count_str (some 1234567) = "1,234,567".data := by
  refine ⟨?_, rfl, rfl, ?_, rfl, rfl, by decide⟩
  · intro n hn
    simp [duration_str, hn]
  · intro n hn
    simp [view_count_str, hn]

/-- C4 witness: the amended statement applied at duration 61 and view
count 1234567. -/
theorem C4_header_fields_witness :
    duration_str (some 61) = "61s".data ∧ view_count_str (some 1234567) = "1,234,567".data := by
  refine ⟨?_, C4_header_fields_amended.2.2.2.2.2.2⟩
  exact (C4_header_fields_amended.1 61 (by decide)).trans (by decide)

/-- C5: on every well-formed time string `dd:dd:dd.<fraction>` (two-digit
numeric fields, any dot- and colon-free fraction), `_time_to_seconds`
returns `hours*3600 + minutes*60 + seconds`, discarding the fractional
part. -/
theorem C5_time_to_seconds (a b c d e f : Char) (frac : List Char)
    (ha : a.isDigit = true) (hb : b.isDigit = true) (hc : c.isDigit = true)
    (hd : d.isDigit = true) (he : e.isDigit = true) (hf : f.isDigit = true)
    (hdot : '.' ∉ frac) (hcolon : ':' ∉ frac) :
    time_to_seconds (a :: b :: ':' :: c :: d :: ':' :: e :: f :: '.' :: frac)
      = .ok (((digitVal a * 10 + digitVal b : Nat) : Int) * 3600 +
             ((digitVal c * 10 + digitVal d : Nat) : Int) * 60 +
             ((digitVal e * 10 + digitVal f : Nat) : Int)) :=
  time_to_seconds_wellFormed ha hb hc hd he hf hdot hcolon

/-- C5 witness: `_time_to_seconds("01:02:03.456") = 3723`. -/
theorem C5_time_to_seconds_witness :
    time_to_seconds "01:02:03.456".data = .ok 3723 := by
  have h := C5_time_to_seconds '0' '1' '0' '2' '0' '3' "456".data
    (by decide) (by decide) (by decide) (by decide) (by decide) (by decide)
    (by decide) (by decide)
  exact h.trans (by rfl)

/-- C6: for every title (of any length and content) and every video id of
realistic length (at most 146 characters; YouTube ids have 11), the
filename produced by `generate_filename_from_metadata` has length at most
200. -/
theorem C6_filename_length_bound (m : VideoMetadata) (vid : List Char)
    (h : vid.length ≤ 146) :
    (generate_filename_from_metadata m vid).length ≤ 200 := by
  have hct := cleanedTitleOf_length_le m.title
  unfold generate_filename_from_metadata
  split
  · have h50 : ((cleanedTitleOf m.title).take 50).length ≤ 50 := by
      rw [List.length_take]
      omega
    simp only [List.length_append, List.length_cons, List.length_nil]
    omega
  · rename_i hle
    rw [Nat.not_lt] at hle
    exact hle

/-- C6 witness: a 300-character title with an 11-character id stays within
the bound. -/
theorem C6_filename_length_witness :
    (List.replicate 300 'a').length ≤ 300 ∧
    (generate_filename_from_metadata
      { title := List.replicate 300 'a', channel := [], channel_id := [], upload_date := [] }
      "dQw4w9WgXcQ".data).length ≤ 200 :=
  ⟨by rw [List.length_replicate], C6_filename_length_bound _ _ (by decide)⟩

/-- C8: `_clean_vtt_line` is idempotent: for every string `s`,
cleaning twice equals cleaning once, so a line already in cleaned form is
returned unchanged. -/
theorem C8_cleanLine_idempotent (s : List Char) :
    cleanLine (cleanLine s) = cleanLine s :=
  cleanLine_id_of_normal (cleanLine_normB s) (cleanLine_noTag s)
    (cleanLine_head_not_space s)

/-- C9: whenever summary-based title generation fails (for any failure,
LLM transport error or out-of-bounds cleaned title), `save_summary`
without metadata recovers internally and uses the literal filename
`"summary.<videoId>.md"`; the failure never propagates. -/
theorem C9_title_failure_fallback (llm : Except Unit (List Char)) (vid : List Char)
    (h : generate_title_from_summary llm = .error ()) :
    saveSummaryFilename none (generate_title_from_summary llm) vid
      = "summary.".data ++ vid ++ ".md".data := by
  rw [h]
  rfl

/-- C9 witness: an LLM transport failure with video id `"abc"` produces
`"summary.abc.md"`. -/
theorem C9_title_failure_witness :
    saveSummaryFilename none (generate_title_from_summary (.error ())) "abc".data
      = "summary.abc.md".data := by
  exact (C9_title_failure_fallback (.error ()) "abc".data rfl).trans (by decide)

/-- C10: for every metadata whose title is non-empty but contains no word
characters, whitespace, or hyphens, the generated filename is exactly
`".<videoId>.md"` — the `"Unknown_Title"` default applies only to an
empty title, not to one emptied by cleaning. -/
theorem C10_empty_cleaned_title (m : VideoMetadata) (vid : List Char)
    (hne : m.title ≠ [])
    (hch : ∀ c ∈ m.title, c.isAlphanum = false ∧ c ≠ '_' ∧ isSpace c = false ∧ c ≠ '-') :
    generate_filename_from_metadata m vid = '.' :: (vid ++ ".md".data) := by
  have hct : cleanedTitleOf m.title = [] := cleanedTitleOf_nonword hne hch
  unfold generate_filename_from_metadata composedFilename
  rw [hct]
  split <;> rfl

set_option maxRecDepth 8192 in
/-- C10 witness: title `"!!!"` with id `"xyz"` yields `".xyz.md"`. -/
theorem C10_empty_cleaned_title_witness :
    generate_filename_from_metadata
      { title := "!!!".data, channel := [], channel_id := [], upload_date := [] } "xyz".data
    = ".xyz.md".data := by
  have h := C10_empty_cleaned_title
    { title := "!!!".data, channel := [], channel_id := [], upload_date := [] } "xyz".data
    (by decide) (by decide)
  exact h.trans (by decide)

end YTS

